import Mathlib

/-!
A formal model of the sparse-set storage core of this entity-component
repository (spec sections 3 and 4), together with the resource cache of
src/entt/resource/resource.hpp, and proofs of the specification claims.

The sparse-set implementation file (entt/entity/sparse_set.hpp) is not part
of the available sources; only its test suite is.  All sparse-set definitions
below are therefore modelled from the specification, with every convention
the spec leaves open (iteration direction, the direction of `respect`, the
orientation of `sort`) pinned down from the worked examples of spec section 8
and from the expectations of test/entt/entity/sparse_set.cpp, exactly as spec
section 9 instructs.
-/

namespace Entt

/-- Modelled from the spec: the untyped index of section 4.1 (the source file
entt/entity/sparse_set.hpp is missing; only its tests are available).
`sparse` maps an identifier to a dense position, `none` being the sentinel of
a never-written entry; stale positions of erased identifiers are allowed to
remain.  `dense` is the hole-free array of currently present identifiers. -/
structure SparseSet where
  sparse : Nat → Option Nat
  dense : List Nat

/-- Modelled from the spec: the default-constructed empty untyped index. -/
def SparseSet.init : SparseSet :=
  { sparse := fun _ => none, dense := [] }

/-- Modelled from the spec: `size()`, the dense array's length. -/
def SparseSet.size (s : SparseSet) : Nat :=
  s.dense.length

/-- Modelled from the spec: `empty()`. -/
def SparseSet.empty (s : SparseSet) : Bool :=
  decide (s.dense.length = 0)

/-- Modelled from the spec: `has(e)` returns whether `e` maps to a position
within current bounds.  A stale sparse entry of an erased identifier must
never be treated as a valid mapping (spec section 3), so the position is
valid exactly when the dense array holds `e` there. -/
def SparseSet.has (s : SparseSet) (e : Nat) : Bool :=
  match s.sparse e with
  | none => false
  | some p => decide (s.dense[p]? = some e)

/-- Modelled from the spec: `get(e)`, the dense position of `e`; undefined
behavior if absent (rendered total with a default). -/
def SparseSet.get (s : SparseSet) (e : Nat) : Nat :=
  (s.sparse e).getD 0

/-- Modelled from the spec: `insert(e)` (named `construct` in the tests):
appends `e` to the dense array at position `n` and sets `sparse[e] = n`. -/
def SparseSet.construct (s : SparseSet) (e : Nat) : SparseSet :=
  { sparse := fun x => if x = e then some s.dense.length else s.sparse x
    dense := s.dense ++ [e] }

/-- Modelled from the spec: `erase(e)` (named `destroy` in the tests),
swap-erase: the last dense entry is moved into the vacated slot
(`dense[sparse[e]] = dense[n-1]`), the moved identifier's sparse entry is
updated to the vacated position, and the dense array shrinks by one.  The
sparse entry of `e` itself is left stale. -/
def SparseSet.destroy (s : SparseSet) (e : Nat) : SparseSet :=
  let p := (s.sparse e).getD 0
  let last := s.dense.getLast?.getD 0
  { sparse := fun x => if x = last then some p else s.sparse x
    dense := (s.dense.set p last).dropLast }

/-- Modelled from the spec: `reset()` clears both arrays to empty. -/
def SparseSet.reset (_ : SparseSet) : SparseSet :=
  SparseSet.init

/-- Modelled from the spec: iteration from `begin()` to `end()` produces the
dense array's identifiers; the tests pin the direction to reverse dense
order (most recently appended position first). -/
def SparseSet.iterate (s : SparseSet) : List Nat :=
  s.dense.reverse

/-- Modelled from the spec: the typed index of section 4.2.  It composes the
untyped index and keeps the payload array in lockstep with the dense array:
`payload[i]` is the data of identifier `dense[i]`. -/
structure Storage where
  base : SparseSet
  payload : List Int

/-- Modelled from the spec: the default-constructed empty typed index. -/
def Storage.init : Storage :=
  { base := SparseSet.init, payload := [] }

/-- Modelled from the spec: the size of a typed index. -/
def Storage.size (t : Storage) : Nat :=
  t.base.size

/-- Modelled from the spec: membership in a typed index. -/
def Storage.has (t : Storage) (e : Nat) : Bool :=
  t.base.has e

/-- Modelled from the spec: `construct(e, value)` delegates identifier
bookkeeping to the untyped insert and appends `value` to the payload array
at the same new position. -/
def Storage.construct (t : Storage) (e : Nat) (v : Int) : Storage :=
  { base := t.base.construct e, payload := t.payload ++ [v] }

/-- Modelled from the spec: `destroy(e)` mirrors the untyped erase, moving
the payload at the last position into the vacated position before
shrinking. -/
def Storage.destroy (t : Storage) (e : Nat) : Storage :=
  let p := (t.base.sparse e).getD 0
  { base := t.base.destroy e
    payload := (t.payload.set p (t.payload.getLast?.getD 0)).dropLast }

/-- Modelled from the spec: `get(e)` returns the payload value at
`sparse[e]`; undefined behavior if absent (rendered total with a default). -/
def Storage.get (t : Storage) (e : Nat) : Int :=
  t.payload.getD ((t.base.sparse e).getD 0) 0

/-- Modelled from the spec: `raw()`, the live payload array. -/
def Storage.raw (t : Storage) : List Int :=
  t.payload

/-- Modelled from the spec: typed iteration, reverse dense order. -/
def Storage.iterate (t : Storage) : List Nat :=
  t.base.iterate

/-- Modelled from the spec: `reset()` on a typed index clears the dense,
sparse and payload arrays. -/
def Storage.reset (_ : Storage) : Storage :=
  Storage.init

/-- Modelled from the spec: `sort(comparator)` reorders the dense and payload
arrays in place according to the caller-supplied ordering over identifiers
and then repairs every affected sparse entry.  The orientation is pinned by
the worked example of spec section 8: with an ascending comparator the raw
payload array ends up descending, so that iteration (which runs in reverse
dense order) visits payloads in ascending order.  The repaired sparse entry
of every present identifier is its position in the new dense array; entries
of absent identifiers are untouched. -/
def Storage.sort (t : Storage) (cmp : Nat → Nat → Bool) : Storage :=
  let sorted :=
    List.insertionSort (fun a b : Nat × Int => cmp a.1 b.1 = false)
      (t.base.dense.zip t.payload)
  let d := sorted.map Prod.fst
  { base :=
      { sparse := fun x => if x ∈ d then some (d.indexOf x) else t.base.sparse x
        dense := d }
    payload := sorted.map Prod.snd }

/-- Modelled from the spec: one swap of the respect algorithm (spec 4.3 step
2): the dense entries at positions `i` and `j` trade places, the payload
array is permuted identically, and both affected sparse mappings are
updated. -/
def Storage.swapAt (t : Storage) (i j : Nat) : Storage :=
  let a := t.base.dense.getD i 0
  let b := t.base.dense.getD j 0
  { base :=
      { sparse := fun x =>
          if x = b then some i else if x = a then some j else t.base.sparse x
        dense := (t.base.dense.set i b).set j a }
    payload := (t.payload.set i (t.payload.getD j 0)).set j (t.payload.getD i 0) }

/-- Modelled from the spec: the walk of the respect algorithm.  It consumes
the other index's identifiers and, for each one present in `self`, swaps it
into the next unclaimed position and advances the claimed boundary.  The
direction convention is the one pinned down by the worked example of spec
section 8 and the tests: the other index is walked in its iteration order
(reverse dense order) and positions of `self` are claimed from the back. -/
def Storage.respectGo (t : Storage) : List Nat → Nat → Storage
  | [], _ => t
  | e :: rest, pos =>
    if t.base.has e then
      Storage.respectGo (t.swapAt pos ((t.base.sparse e).getD 0)) rest (pos - 1)
    else
      Storage.respectGo t rest pos

/-- Modelled from the spec: `respect(other)` (spec 4.3), reordering `self`
so that, restricted to the identifiers present in both indexes, the relative
order matches the other index's dense order. -/
def Storage.respect (t other : Storage) : Storage :=
  Storage.respectGo t other.base.dense.reverse (t.base.dense.length - 1)

/-- Validity of an untyped index: the dense array is duplicate-free and every
present identifier's sparse entry is a live position holding it (the core
invariant of spec section 3). -/
def SparseSet.Valid (s : SparseSet) : Prop :=
  s.dense.Nodup ∧ ∀ e ∈ s.dense, s.has e = true

instance (s : SparseSet) : Decidable s.Valid :=
  inferInstanceAs (Decidable (s.dense.Nodup ∧ ∀ e ∈ s.dense, s.has e = true))

/-- Well-formedness of a typed index: the underlying untyped index is valid
and the payload array has exactly one entry per dense position. -/
def Storage.WF (t : Storage) : Prop :=
  t.base.Valid ∧ t.payload.length = t.base.dense.length

instance (t : Storage) : Decidable t.WF :=
  inferInstanceAs (Decidable (t.base.Valid ∧ t.payload.length = t.base.dense.length))

/-- Operations of the full external interface of the typed index (spec
section 6): insert, erase, sort with a comparator, respect against another
index, and bulk reset. -/
inductive Op where
  | ins : Nat → Int → Op
  | del : Nat → Op
  | srt : (Nat → Nat → Bool) → Op
  | rsp : Storage → Op
  | rst : Op

/-- One step of the typed index under an operation. -/
def Op.apply (t : Storage) : Op → Storage
  | .ins e v => t.construct e v
  | .del e => t.destroy e
  | .srt cmp => t.sort cmp
  | .rsp other => t.respect other
  | .rst => t.reset

/-- Run of a sequence of operations from a given state. -/
def Op.exec (t : Storage) : List Op → Storage
  | [] => t
  | op :: rest => Op.exec (op.apply t) rest

/-- Specification-level set of present identifiers along a run: an
identifier is present when it was inserted at some earlier step and neither
erased nor wiped by a reset since; sort and respect do not change it. -/
def Op.abs (A : List Nat) : List Op → List Nat
  | [] => A
  | .ins e _ :: rest => Op.abs (e :: A) rest
  | .del e :: rest => Op.abs (A.erase e) rest
  | .srt _ :: rest => Op.abs A rest
  | .rsp _ :: rest => Op.abs A rest
  | .rst :: rest => Op.abs [] rest

/-- Legality of a run (spec sections 4.1 and 7): inserting requires the
identifier to be absent and erasing requires it to be present; the other
operations are unconditional. -/
def Op.legal (A : List Nat) : List Op → Bool
  | [] => true
  | .ins e _ :: rest => !(A.contains e) && Op.legal (e :: A) rest
  | .del e :: rest => A.contains e && Op.legal (A.erase e) rest
  | .srt _ :: rest => Op.legal A rest
  | .rsp _ :: rest => Op.legal A rest
  | .rst :: rest => Op.legal [] rest

/-- Insert/erase-only operations, the alphabet of the claim about `has`
(spec section 8, first testable property). -/
inductive MOp where
  | ins : Nat → Int → MOp
  | del : Nat → MOp

/-- One step under an insert/erase operation. -/
def MOp.apply (t : Storage) : MOp → Storage
  | .ins e v => t.construct e v
  | .del e => t.destroy e

/-- Run of a sequence of insert/erase operations. -/
def MOp.exec (t : Storage) : List MOp → Storage
  | [] => t
  | op :: rest => MOp.exec (op.apply t) rest

/-- Identifiers inserted and not yet erased along an insert/erase run. -/
def MOp.abs (A : List Nat) : List MOp → List Nat
  | [] => A
  | .ins e _ :: rest => MOp.abs (e :: A) rest
  | .del e :: rest => MOp.abs (A.erase e) rest

/-- Legality of an insert/erase run: no inserting a present identifier, no
erasing an absent one. -/
def MOp.legal (A : List Nat) : List MOp → Bool
  | [] => true
  | .ins e _ :: rest => !(A.contains e) && MOp.legal (e :: A) rest
  | .del e :: rest => A.contains e && MOp.legal (A.erase e) rest

/-- Cache of shared resources, translated from `ResourceCache` in
src/entt/resource/resource.hpp.  The `unordered_map` from hashed identifier
to `shared_ptr` is embedded as a function into `Option` (`none` when the
identifier was never stored). -/
structure ResourceCache (Res : Type) where
  resources : Nat → Option Res

/-- Default-constructed empty cache. -/
def ResourceCache.init {Res : Type} : ResourceCache Res :=
  { resources := fun _ => none }

/-- Translated from `ResourceCache::contains`: whether the map holds the
identifier. -/
def ResourceCache.contains {Res : Type} (c : ResourceCache Res) (idr : Nat) : Bool :=
  (c.resources idr).isSome

/-- Translated from `ResourceCache::load`: if the identifier is absent the
loader runs (its `shared_ptr` result is an `Option`, `none` standing for a
null pointer) and a non-null result is stored; the returned flag reports
whether the resource is ready.  The embedding additionally returns how many
times the loader was invoked, which the control flow of the source
determines exactly: zero on the early-exit branch, one otherwise. -/
def ResourceCache.load {Res : Type} (c : ResourceCache Res) (loader : Option Res)
    (idr : Nat) : Bool × ResourceCache Res × Nat :=
  if (c.resources idr).isSome then
    (true, c, 0)
  else
    match loader with
    | some r => (true, { resources := fun x => if x = idr then some r else c.resources x }, 1)
    | none => (false, c, 1)

/-- Running example store of the spec (section 8): identifiers 3, 12, 42
with payloads 3, 6, 9. -/
def st3 : Storage :=
  ((Storage.init.construct 3 3).construct 12 6).construct 42 9

/-- Sort scenario of the spec (section 8) and of test SortOrdered: payloads
12, 9, 6, 3, 1 constructed under identifiers 12, 42, 7, 3, 9. -/
def st5 : Storage :=
  ((((Storage.init.construct 12 12).construct 42 9).construct 7 6).construct 3 3).construct 9 1

/-- Ascending-by-value comparator over identifiers of `st5`, the literal
comparator of the tests. -/
def cmpAsc5 : Nat → Nat → Bool :=
  fun l r => decide (st5.get l < st5.get r)

/-- Index holding identifiers 1..5 in that order (tests RespectOrdered,
RespectReverse, RespectUnordered). -/
def lhs5 : Storage :=
  ((((Storage.init.construct 1 0).construct 2 0).construct 3 0).construct 4 0).construct 5 0

/-- Index holding identifiers 3, 2, 6, 1, 4, 5 in that insertion order
(test RespectUnordered). -/
def rhs6 : Storage :=
  (((((Storage.init.construct 3 0).construct 2 0).construct 6 0).construct 1 0).construct 4 0).construct 5 0

/-- Partial-overlap scenario refuting the placement direction of the claim
about respect: self holds 1, 2, 3 and shares only identifier 1 with the
other index. -/
def ovSelf : Storage :=
  ((Storage.init.construct 1 10).construct 2 20).construct 3 30

/-- Other index of the partial-overlap scenario, holding only identifier 1. -/
def ovOther : Storage :=
  Storage.init.construct 1 10

/-- Untyped store holding identifiers 3, 12, 42 (test DataBeginEnd). -/
def d3 : SparseSet :=
  ((SparseSet.init.construct 3).construct 12).construct 42

/-- Typed store disjoint from `st3`, holding identifiers 7 and 9. -/
def dj2 : Storage :=
  (Storage.init.construct 7 1).construct 9 2

/-- One-element store used to exercise the sort no-op edge case. -/
def st1 : Storage :=
  Storage.init.construct 7 5

/-- Strict natural order on identifiers, a strict weak ordering usable as a
sort comparator. -/
def cmpLt : Nat → Nat → Bool :=
  fun a b => decide (a < b)

/-- Concrete cache holding a resource under identifier 7. -/
def cpre : ResourceCache Nat :=
  { resources := fun x => if x = 7 then some 5 else none }

/-- Concrete legal run exercising every operation kind: two insertions, a
sort, a respect against a disjoint index, and an erase. -/
def traceC1 : List Op :=
  [Op.ins 3 3, Op.ins 12 6, Op.srt cmpLt, Op.rsp dj2, Op.del 3]

/-! Basic lemmas about the membership query. -/

lemma SparseSet.has_iff {s : SparseSet} {e : Nat} :
    s.has e = true ↔ ∃ p, s.sparse e = some p ∧ s.dense[p]? = some e := by
  unfold SparseSet.has
  cases h : s.sparse e with
  | none => simp
  | some p => simp

lemma SparseSet.mem_of_has {s : SparseSet} {e : Nat} (h : s.has e = true) :
    e ∈ s.dense := by
  obtain ⟨p, -, hp⟩ := SparseSet.has_iff.1 h
  exact List.mem_iff_getElem?.2 ⟨p, hp⟩

lemma SparseSet.has_eq_decide_mem {s : SparseSet} (hv : s.Valid) (e : Nat) :
    s.has e = decide (e ∈ s.dense) := by
  by_cases hm : e ∈ s.dense
  · simp [hm, hv.2 e hm]
  · have hd : decide (e ∈ s.dense) = false := by simp [hm]
    rw [hd]
    exact Bool.eq_false_iff.2 fun hh => hm (SparseSet.mem_of_has hh)

lemma SparseSet.has_iff_mem {s : SparseSet} (hv : s.Valid) {e : Nat} :
    s.has e = true ↔ e ∈ s.dense := by
  rw [SparseSet.has_eq_decide_mem hv]
  simp

/-! Generic list helpers used throughout: reading a position through `getD`,
injectivity of positions of a duplicate-free list, and the fact that an
in-range double update realizing a transposition is a permutation. -/

lemma list_getElem?_eq_some_getD {α : Type} {l : List α} {i : Nat}
    (h : i < l.length) (d : α) : l[i]? = some (l.getD i d) := by
  rw [List.getD_eq_getElem?_getD, List.getElem?_eq_getElem h]
  rfl

lemma list_nodup_getElem?_inj {α : Type} {l : List α} (hnd : l.Nodup)
    {i j : Nat} {x : α} (hi : l[i]? = some x) (hj : l[j]? = some x) : i = j := by
  have hilt : i < l.length := (List.getElem?_eq_some.1 hi).1
  have hjlt : j < l.length := (List.getElem?_eq_some.1 hj).1
  rcases Nat.lt_trichotomy i j with h | h | h
  · exact absurd (hi.trans hj.symm) (List.nodup_iff_getElem?_ne_getElem?.1 hnd i j h hjlt)
  · exact h
  · exact absurd (hj.trans hi.symm) (List.nodup_iff_getElem?_ne_getElem?.1 hnd j i h hilt)

lemma list_count_set (x v : Nat) :
    ∀ (l : List Nat) (i : Nat), i < l.length →
      (l.set i v).count x + (if l[i]? = some x then 1 else 0)
        = l.count x + (if v = x then 1 else 0)
  | [], i, h => by simp at h
  | a :: tl, 0, _ => by
    simp [List.count_cons]
    omega
  | a :: tl, i + 1, h => by
    have ih := list_count_set x v tl i (by simpa using h)
    simp only [List.set_cons_succ, List.count_cons, List.getElem?_cons_succ]
    omega

lemma list_swap_perm {l : List Nat} {i j : Nat} (hi : i < l.length)
    (hj : j < l.length) :
    List.Perm ((l.set i (l.getD j 0)).set j (l.getD i 0)) l := by
  set a := l.getD i 0 with ha
  set b := l.getD j 0 with hb
  have hia : l[i]? = some a := list_getElem?_eq_some_getD hi 0
  have hjb : l[j]? = some b := list_getElem?_eq_some_getD hj 0
  refine List.perm_iff_count.2 fun x => ?_
  have hlen : j < (l.set i b).length := by simpa using hj
  have h1 := list_count_set x a (l.set i b) j hlen
  have h2 := list_count_set x b l i hi
  by_cases hij : i = j
  · subst hij
    have hab : a = b := by rw [ha, hb]
    have hset : (l.set i b)[i]? = some b := by
      rw [List.getElem?_set_self hi]
    rw [hset] at h1
    rw [hia] at h2
    simp only [Option.some.injEq] at h1 h2
    rw [hab] at h1 h2 ⊢
    omega
  · have : (l.set i b)[j]? = l[j]? := List.getElem?_set_ne hij
    rw [this, hjb] at h1
    rw [hia] at h2
    simp only [Option.some.injEq] at h1 h2
    omega

/-! The respect walk skips identifiers that are not present, so an index
disjoint from the other one is returned untouched. -/

lemma Storage.respectGo_of_no_common :
    ∀ (L : List Nat) (t : Storage) (pos : Nat),
      (∀ e ∈ L, t.base.has e = false) → Storage.respectGo t L pos = t
  | [], _, _, _ => rfl
  | e :: rest, t, pos, h => by
    have he : t.base.has e = false := h e (List.mem_cons_self e rest)
    rw [Storage.respectGo, he]
    simp only [Bool.false_eq_true, if_false]
    exact Storage.respectGo_of_no_common rest t pos fun f hf =>
      h f (List.mem_cons_of_mem e hf)

/-! Effects of insertion. -/

lemma SparseSet.construct_dense (s : SparseSet) (e : Nat) :
    (s.construct e).dense = s.dense ++ [e] := rfl

lemma SparseSet.construct_valid {s : SparseSet} (hv : s.Valid) {e : Nat}
    (he : e ∉ s.dense) : (s.construct e).Valid := by
  constructor
  · rw [SparseSet.construct_dense, List.nodup_append]
    exact ⟨hv.1, List.nodup_singleton e, fun x hx hx1 => by
      simp only [List.mem_singleton] at hx1
      exact he (hx1 ▸ hx)⟩
  · intro x hx
    rw [SparseSet.construct_dense, List.mem_append, List.mem_singleton] at hx
    refine SparseSet.has_iff.2 ?_
    by_cases hxe : x = e
    · refine ⟨s.dense.length, ?_, ?_⟩
      · simp [SparseSet.construct, hxe]
      · rw [SparseSet.construct_dense,
          List.getElem?_append_right (Nat.le_refl _)]
        simp [hxe]
    · obtain ⟨p, hsp, hdp⟩ := SparseSet.has_iff.1 (hv.2 x (hx.resolve_right hxe))
      refine ⟨p, ?_, ?_⟩
      · simp [SparseSet.construct, hxe, hsp]
      · have hplt : p < s.dense.length := (List.getElem?_eq_some.1 hdp).1
        rw [SparseSet.construct_dense, List.getElem?_append_left hplt]
        exact hdp

/-! Pointwise description of the swap-erase rearrangement on any list: the
entry at the erased position is overwritten by the last entry and the list
shrinks by one, every other position being untouched. -/

lemma list_moveback_getElem? {α : Type} (l : List α) (d0 : α) {p : Nat}
    (hp : p < l.length) (i : Nat) :
    ((l.set p (l.getLast?.getD d0)).dropLast)[i]? =
      if i < l.length - 1 then
        (if i = p then l[l.length - 1]? else l[i]?)
      else none := by
  have hlt : l.length - 1 < l.length := by omega
  have hw := List.getElem?_eq_getElem hlt
  have hsome : some (l.getLast?.getD d0) = l[l.length - 1]? := by
    rw [List.getLast?_eq_getElem?, hw]
    rfl
  rw [List.dropLast_eq_take, List.length_set]
  by_cases hi : i < l.length - 1
  · rw [if_pos hi, List.getElem?_take_of_lt hi, List.getElem?_set]
    by_cases hip : p = i
    · rw [if_pos hip, if_pos hp, if_pos hip.symm, hsome]
    · rw [if_neg hip, if_neg fun hh => hip hh.symm]
  · rw [if_neg hi, List.getElem?_eq_none]
    rw [List.length_take, List.length_set]
    omega

/-! Effects of swap-erase on the untyped index. -/

lemma SparseSet.destroy_dense_length (s : SparseSet) (e : Nat) :
    (s.destroy e).dense.length = s.dense.length - 1 := by
  simp [SparseSet.destroy]

lemma SparseSet.destroy_dense_getElem? {s : SparseSet} {e p : Nat}
    (hsp : s.sparse e = some p) (hdp : s.dense[p]? = some e) (i : Nat) :
    (s.destroy e).dense[i]? =
      if i < s.dense.length - 1 then
        (if i = p then s.dense[s.dense.length - 1]? else s.dense[i]?)
      else none := by
  have hplt : p < s.dense.length := (List.getElem?_eq_some.1 hdp).1
  show ((s.dense.set ((s.sparse e).getD 0) (s.dense.getLast?.getD 0)).dropLast)[i]? = _
  rw [hsp]
  exact list_moveback_getElem? s.dense 0 hplt i

lemma SparseSet.destroy_sparse (s : SparseSet) (e x : Nat) :
    (s.destroy e).sparse x =
      if x = s.dense.getLast?.getD 0 then some ((s.sparse e).getD 0)
      else s.sparse x := rfl

lemma SparseSet.destroy_mem {s : SparseSet} (hv : s.Valid) {e : Nat}
    (he : e ∈ s.dense) (x : Nat) :
    x ∈ (s.destroy e).dense ↔ (x ∈ s.dense ∧ x ≠ e) := by
  obtain ⟨p, hsp, hdp⟩ := SparseSet.has_iff.1 (hv.2 e he)
  have hplt : p < s.dense.length := (List.getElem?_eq_some.1 hdp).1
  have hchar := SparseSet.destroy_dense_getElem? hsp hdp
  have hlt : s.dense.length - 1 < s.dense.length := by omega
  have hlastw := List.getElem?_eq_getElem hlt
  constructor
  · intro hx
    obtain ⟨i, hix⟩ := List.mem_iff_getElem?.1 hx
    rw [hchar i] at hix
    by_cases hi : i < s.dense.length - 1
    · rw [if_pos hi] at hix
      by_cases hip : i = p
      · rw [if_pos hip] at hix
        refine ⟨List.mem_iff_getElem?.2 ⟨s.dense.length - 1, hix⟩, fun hxe => ?_⟩
        subst hxe
        have := list_nodup_getElem?_inj hv.1 hix hdp
        omega
      · rw [if_neg hip] at hix
        refine ⟨List.mem_iff_getElem?.2 ⟨i, hix⟩, fun hxe => ?_⟩
        subst hxe
        exact hip (list_nodup_getElem?_inj hv.1 hix hdp)
    · rw [if_neg hi] at hix
      exact absurd hix (by simp)
  · rintro ⟨hx, hxe⟩
    obtain ⟨i, hix⟩ := List.mem_iff_getElem?.1 hx
    have hilt : i < s.dense.length := (List.getElem?_eq_some.1 hix).1
    have hip : i ≠ p := fun hh => hxe (by
      rw [hh] at hix
      exact Option.some.inj (hix.symm.trans hdp))
    refine List.mem_iff_getElem?.2 ?_
    by_cases hi : i < s.dense.length - 1
    · exact ⟨i, by rw [hchar i, if_pos hi, if_neg hip]; exact hix⟩
    · have hieq : i = s.dense.length - 1 := by omega
      have hplast : p < s.dense.length - 1 := by
        rcases Nat.lt_or_ge p (s.dense.length - 1) with h | h
        · exact h
        · exact absurd (by omega : p = s.dense.length - 1) fun hh => hip (hieq.trans hh.symm)
      exact ⟨p, by
        rw [hchar p, if_pos hplast, if_pos rfl, ← hieq]
        exact hix⟩

lemma SparseSet.destroy_valid {s : SparseSet} (hv : s.Valid) {e : Nat}
    (he : e ∈ s.dense) : (s.destroy e).Valid := by
  obtain ⟨p, hsp, hdp⟩ := SparseSet.has_iff.1 (hv.2 e he)
  have hplt : p < s.dense.length := (List.getElem?_eq_some.1 hdp).1
  have hchar := SparseSet.destroy_dense_getElem? hsp hdp
  have hlt : s.dense.length - 1 < s.dense.length := by omega
  have hlastw := List.getElem?_eq_getElem hlt
  have hlen := SparseSet.destroy_dense_length s e
  obtain ⟨w, hw⟩ : ∃ w, s.dense[s.dense.length - 1]? = some w := ⟨_, hlastw⟩
  constructor
  · refine List.nodup_iff_getElem?_ne_getElem?.2 fun i j hij hjlt heq => ?_
    rw [hlen] at hjlt
    rw [hchar i, hchar j, if_pos (by omega), if_pos hjlt] at heq
    by_cases hip : i = p
    · rw [if_pos hip, if_neg (by omega : ¬j = p), hw] at heq
      have := list_nodup_getElem?_inj hv.1 heq.symm hw
      omega
    · rw [if_neg hip] at heq
      by_cases hjp : j = p
      · rw [if_pos hjp, hw] at heq
        have := list_nodup_getElem?_inj hv.1 heq hw
        omega
      · rw [if_neg hjp] at heq
        exact List.nodup_iff_getElem?_ne_getElem?.1 hv.1 i j hij (by omega) heq
  · intro x hx
    obtain ⟨hxd, hxe⟩ := (SparseSet.destroy_mem hv he x).1 hx
    obtain ⟨q, hsq, hdq⟩ := SparseSet.has_iff.1 (hv.2 x hxd)
    have hqlt : q < s.dense.length := (List.getElem?_eq_some.1 hdq).1
    have hsome : some (s.dense.getLast?.getD 0) = s.dense[s.dense.length - 1]? := by
      rw [List.getLast?_eq_getElem?, hlastw]
      rfl
    refine SparseSet.has_iff.2 ?_
    rw [SparseSet.destroy_sparse]
    by_cases hxl : x = s.dense.getLast?.getD 0
    · have hqlast : q = s.dense.length - 1 :=
        list_nodup_getElem?_inj hv.1 hdq (by rw [← hsome, ← hxl])
      have hpne : p ≠ s.dense.length - 1 := fun hh => by
        apply hxe
        have : x = e := Option.some.inj (by
          rw [← hdq, hqlast, ← hh, hdp])
        exact this
      refine ⟨p, by rw [if_pos hxl, hsp]; rfl, ?_⟩
      rw [hchar p, if_pos (by omega), if_pos rfl, ← hsome, ← hxl]
    · have hqp : q ≠ p := fun hh => hxe (Option.some.inj (by rw [← hdq, hh, hdp]))
      have hqlast : q ≠ s.dense.length - 1 := fun hh => hxl (Option.some.inj (by
        rw [hsome, ← hh, hdq]))
      refine ⟨q, by rw [if_neg hxl]; exact hsq, ?_⟩
      rw [hchar q, if_pos (by omega), if_neg hqp]
      exact hdq

/-! Typed-index wrappers of the step lemmas. -/

lemma Storage.construct_base_dense (t : Storage) (e : Nat) (v : Int) :
    (t.construct e v).base.dense = t.base.dense ++ [e] := rfl

lemma Storage.construct_wf {t : Storage} (h : t.WF) {e : Nat}
    (he : e ∉ t.base.dense) (v : Int) : (t.construct e v).WF := by
  refine ⟨SparseSet.construct_valid h.1 he, ?_⟩
  show (t.payload ++ [v]).length = (t.base.dense ++ [e]).length
  simp [h.2]

lemma Storage.destroy_base (t : Storage) (e : Nat) :
    (t.destroy e).base = t.base.destroy e := rfl

lemma Storage.destroy_wf {t : Storage} (h : t.WF) {e : Nat}
    (he : e ∈ t.base.dense) : (t.destroy e).WF := by
  refine ⟨SparseSet.destroy_valid h.1 he, ?_⟩
  show ((t.payload.set _ _).dropLast).length = (t.base.destroy e).dense.length
  rw [SparseSet.destroy_dense_length]
  simp [h.2]

/-- Claim C7: erase is swap-erase.  For any well-formed store and present
identifier `e` with dense position `p = sparse[e]` and size `n`, `destroy e`
shrinks the dense and payload arrays to length `n - 1`, moves the identifier
at dense position `n - 1` (and its payload) into position `p`, leaves every
other dense and payload entry unchanged, and redirects the moved
identifier's sparse entry to `p` while every other identifier's sparse entry
is untouched. -/
theorem claim7_swap_erase (t : Storage) (e : Nat) (hwf : t.WF)
    (he : t.has e = true) :
    (t.destroy e).base.dense.length = t.base.dense.length - 1
    ∧ (t.destroy e).payload.length = t.base.dense.length - 1
    ∧ (∀ i, i < t.base.dense.length - 1 →
        (t.destroy e).base.dense[i]? =
          if i = t.base.get e then t.base.dense[t.base.dense.length - 1]?
          else t.base.dense[i]?)
    ∧ (∀ i, i < t.base.dense.length - 1 →
        (t.destroy e).payload[i]? =
          if i = t.base.get e then t.payload[t.base.dense.length - 1]?
          else t.payload[i]?)
    ∧ (∀ m, t.base.dense[t.base.dense.length - 1]? = some m →
        (t.destroy e).base.sparse m = some (t.base.get e))
    ∧ (∀ x, t.base.dense[t.base.dense.length - 1]? ≠ some x →
        (t.destroy e).base.sparse x = t.base.sparse x) := by
  obtain ⟨p, hsp, hdp⟩ := SparseSet.has_iff.1 he
  have hget : t.base.get e = p := by
    unfold SparseSet.get
    rw [hsp]
    rfl
  have hplt : p < t.base.dense.length := (List.getElem?_eq_some.1 hdp).1
  have hlt : t.base.dense.length - 1 < t.base.dense.length := by omega
  have hlastw := List.getElem?_eq_getElem hlt
  obtain ⟨w, hw⟩ : ∃ w, t.base.dense[t.base.dense.length - 1]? = some w := ⟨_, hlastw⟩
  have hlast : t.base.dense.getLast?.getD 0 = w := by
    rw [List.getLast?_eq_getElem?, hw]
    rfl
  refine ⟨SparseSet.destroy_dense_length t.base e, ?_, ?_, ?_, ?_, ?_⟩
  · show ((t.payload.set _ _).dropLast).length = _
    simp [hwf.2]
  · intro i hi
    rw [Storage.destroy_base, SparseSet.destroy_dense_getElem? hsp hdp i,
      if_pos hi, hget]
  · intro i hi
    have hplen : p < t.payload.length := by rw [hwf.2]; omega
    show ((t.payload.set ((t.base.sparse e).getD 0) (t.payload.getLast?.getD 0)).dropLast)[i]? = _
    rw [hsp]
    show ((t.payload.set p (t.payload.getLast?.getD 0)).dropLast)[i]? = _
    rw [list_moveback_getElem? t.payload 0 hplen i, hwf.2, if_pos hi, hget]
  · intro m hm
    have hmw : m = w := Option.some.inj (hm.symm.trans hw)
    rw [Storage.destroy_base, SparseSet.destroy_sparse,
      if_pos (hmw.trans hlast.symm), hsp, hget]
    rfl
  · intro x hx
    have hxw : x ≠ w := fun hh => hx (hh ▸ hw)
    rw [Storage.destroy_base, SparseSet.destroy_sparse,
      if_neg (fun hh => hxw (hh.trans hlast))]

/-- Witness for claim C7 at the concrete store with identifiers 3, 12, 42
and payloads 3, 6, 9, erasing identifier 12 (dense position 1): the store
shrinks to two entries, position 1 now holds identifier 42 with payload 9,
and 42's sparse entry was redirected to position 1. -/
theorem claim7_swap_erase_witness :
    (st3.destroy 12).base.dense.length = 2
    ∧ (st3.destroy 12).base.dense[1]? = some 42
    ∧ (st3.destroy 12).payload[1]? = some 9
    ∧ (st3.destroy 12).base.sparse 42 = some 1 := by
  have h := claim7_swap_erase st3 12 (by decide) (by decide)
  refine ⟨h.1.trans (by decide), ?_, ?_, ?_⟩
  · exact (h.2.2.1 1 (by decide)).trans (by decide)
  · exact (h.2.2.2.1 1 (by decide)).trans (by decide)
  · exact (h.2.2.2.2.1 42 (by decide)).trans (by decide)

/-! Invariant preservation along insert/erase runs. -/

lemma MOp.insert_erase_run_inv :
    ∀ (ops : List MOp) (t : Storage) (A : List Nat),
      t.WF → A.Nodup → (∀ x, x ∈ t.base.dense ↔ x ∈ A) →
      MOp.legal A ops = true →
      (MOp.exec t ops).WF ∧ (MOp.abs A ops).Nodup
        ∧ ∀ x, x ∈ (MOp.exec t ops).base.dense ↔ x ∈ MOp.abs A ops
  | [], _, _, hwf, hA, hmem, _ => ⟨hwf, hA, hmem⟩
  | .ins e v :: rest, t, A, hwf, hA, hmem, hleg => by
    rw [MOp.legal, Bool.and_eq_true] at hleg
    have heA : e ∉ A := by
      intro hh
      have hc : A.contains e = true := by simp [List.contains, hh]
      rw [hc] at hleg
      exact absurd hleg.1 (by decide)
    have het : e ∉ t.base.dense := fun hh => heA ((hmem e).1 hh)
    refine MOp.insert_erase_run_inv rest (t.construct e v) (e :: A)
      (Storage.construct_wf hwf het v)
      (List.nodup_cons.2 ⟨heA, hA⟩) (fun x => ?_) hleg.2
    rw [Storage.construct_base_dense, List.mem_append, List.mem_singleton,
      List.mem_cons, hmem x]
    tauto
  | .del e :: rest, t, A, hwf, hA, hmem, hleg => by
    rw [MOp.legal, Bool.and_eq_true] at hleg
    have heA : e ∈ A := by
      have h1 := hleg.1
      simpa [List.contains] using h1
    have het : e ∈ t.base.dense := (hmem e).2 heA
    refine MOp.insert_erase_run_inv rest (t.destroy e) (A.erase e)
      (Storage.destroy_wf hwf het) (hA.erase e) (fun x => ?_) hleg.2
    show x ∈ (t.base.destroy e).dense ↔ _
    rw [SparseSet.destroy_mem hwf.1 het x, hA.mem_erase_iff, hmem x]
    tauto

/-- Claim C4: along every legal insert/erase run (no inserting a present
identifier, no erasing an absent one), `has e` holds exactly when `e` was
inserted at some earlier step and not erased since.  The query itself is a
pure total function of the state in this embedding, so it can neither
mutate the store nor fail, including on identifiers never inserted. -/
theorem claim4_has_membership (ops : List MOp) (hleg : MOp.legal [] ops = true)
    (e : Nat) :
    (MOp.exec Storage.init ops).has e = true ↔ e ∈ MOp.abs [] ops := by
  have h := MOp.insert_erase_run_inv ops Storage.init [] (by decide) List.nodup_nil
    (fun x => by simp [Storage.init, SparseSet.init]) hleg
  exact (SparseSet.has_iff_mem h.1.1).trans (h.2.2 e)

/-- Witness for claim C4: after the single legal insertion of identifier 42,
`has 0` is false and `has 42` is true. -/
theorem claim4_has_membership_witness :
    (MOp.exec Storage.init [MOp.ins 42 3]).has 0 = false
      ∧ (MOp.exec Storage.init [MOp.ins 42 3]).has 42 = true := by
  constructor
  · exact Bool.eq_false_iff.2 fun hh =>
      absurd ((claim4_has_membership [MOp.ins 42 3] (by decide) 0).1 hh) (by decide)
  · exact (claim4_has_membership [MOp.ins 42 3] (by decide) 42).2 (by decide)

lemma Storage.eq_of_fields : ∀ {t u : Storage},
    t.base.sparse = u.base.sparse → t.base.dense = u.base.dense →
    t.payload = u.payload → t = u
  | ⟨⟨_, _⟩, _⟩, ⟨⟨_, _⟩, _⟩, hs, hd, hp => by
    cases hs
    cases hd
    cases hp
    rfl

lemma bool_eq_true_of_ne_false {b : Bool} (h : ¬b = false) : b = true := by
  cases b
  · exact absurd rfl h
  · rfl

lemma bool_eq_false_of_ne_true {b : Bool} (h : ¬b = true) : b = false := by
  cases b
  · rfl
  · exact absurd rfl h

/-! Effects of sort. -/

lemma Storage.sort_base_dense (t : Storage) (cmp : Nat → Nat → Bool) :
    (t.sort cmp).base.dense =
      (List.insertionSort (fun a b : Nat × Int => cmp a.1 b.1 = false)
        (t.base.dense.zip t.payload)).map Prod.fst := rfl

lemma Storage.sort_payload (t : Storage) (cmp : Nat → Nat → Bool) :
    (t.sort cmp).payload =
      (List.insertionSort (fun a b : Nat × Int => cmp a.1 b.1 = false)
        (t.base.dense.zip t.payload)).map Prod.snd := rfl

lemma Storage.sort_base_sparse (t : Storage) (cmp : Nat → Nat → Bool) (x : Nat) :
    (t.sort cmp).base.sparse x =
      if x ∈ (t.sort cmp).base.dense
      then some ((t.sort cmp).base.dense.indexOf x)
      else t.base.sparse x := rfl

lemma Storage.sort_dense_perm {t : Storage}
    (hlen : t.base.dense.length ≤ t.payload.length) (cmp : Nat → Nat → Bool) :
    List.Perm (t.sort cmp).base.dense t.base.dense := by
  rw [Storage.sort_base_dense]
  have h1 := (List.perm_insertionSort
    (fun a b : Nat × Int => cmp a.1 b.1 = false) (t.base.dense.zip t.payload)).map Prod.fst
  rwa [List.map_fst_zip _ _ hlen] at h1

lemma Storage.sort_wf {t : Storage} (hwf : t.WF) (cmp : Nat → Nat → Bool) :
    (t.sort cmp).WF := by
  have hperm := Storage.sort_dense_perm (Nat.le_of_eq hwf.2.symm) cmp
  refine ⟨⟨hperm.symm.nodup hwf.1.1, fun x hx => ?_⟩, ?_⟩
  · refine SparseSet.has_iff.2 ⟨(t.sort cmp).base.dense.indexOf x, ?_, ?_⟩
    · rw [Storage.sort_base_sparse, if_pos hx]
    · have hlt := List.indexOf_lt_length.2 hx
      rw [List.getElem?_eq_getElem hlt, List.getElem_indexOf hlt]
  · rw [Storage.sort_payload, Storage.sort_base_dense]
    simp

/-- Claim C8: with a comparator that is a strict weak ordering (irreflexive,
transitive, with transitive incomparability), sorting twice produces exactly
the state of sorting once, sparse array included; and on a well-formed store
of at most one element a single sort is already the identity. -/
theorem claim8_sort_idempotent (t : Storage) (cmp : Nat → Nat → Bool)
    (hirr : ∀ a, cmp a a = false)
    (htr : ∀ a b c, cmp a b = true → cmp b c = true → cmp a c = true)
    (hinc : ∀ a b c, cmp a b = false → cmp b a = false → cmp b c = false →
      cmp c b = false → cmp a c = false ∧ cmp c a = false) :
    (t.sort cmp).sort cmp = t.sort cmp
    ∧ (t.WF → t.base.dense.length ≤ 1 → t.sort cmp = t) := by
  haveI hTot : IsTotal (Nat × Int) (fun a b => cmp a.1 b.1 = false) := by
    refine ⟨fun x y => ?_⟩
    by_cases hxy : cmp x.1 y.1 = false
    · exact Or.inl hxy
    · refine Or.inr ?_
      by_cases hyx : cmp y.1 x.1 = false
      · exact hyx
      · exact absurd (htr _ _ _ (bool_eq_true_of_ne_false hxy)
          (bool_eq_true_of_ne_false hyx)) (by simp [hirr])
  haveI hTr : IsTrans (Nat × Int) (fun a b => cmp a.1 b.1 = false) := by
    refine ⟨fun x y z hxy hyz => ?_⟩
    by_contra hxz
    have hxz := bool_eq_true_of_ne_false hxz
    by_cases hyx : cmp y.1 x.1 = true
    · exact absurd (htr _ _ _ hyx hxz) (by simp [hyz])
    · by_cases hzy : cmp z.1 y.1 = true
      · exact absurd (htr _ _ _ hxz hzy) (by simp [hxy])
      · exact absurd (hinc x.1 y.1 z.1 hxy (bool_eq_false_of_ne_true hyx) hyz
          (bool_eq_false_of_ne_true hzy)).1 (by simp [hxz])
  constructor
  · have hzip : ((t.sort cmp).base.dense.zip (t.sort cmp).payload)
        = List.insertionSort (fun a b : Nat × Int => cmp a.1 b.1 = false)
            (t.base.dense.zip t.payload) := by
      rw [Storage.sort_base_dense, Storage.sort_payload, ← List.unzip_fst,
        ← List.unzip_snd, List.zip_unzip]
    have hss : List.insertionSort (fun a b : Nat × Int => cmp a.1 b.1 = false)
        (List.insertionSort (fun a b : Nat × Int => cmp a.1 b.1 = false)
          (t.base.dense.zip t.payload))
        = List.insertionSort (fun a b : Nat × Int => cmp a.1 b.1 = false)
            (t.base.dense.zip t.payload) :=
      (List.sorted_insertionSort _ _).insertionSort_eq
    have hdense : ((t.sort cmp).sort cmp).base.dense = (t.sort cmp).base.dense := by
      rw [Storage.sort_base_dense (t.sort cmp), hzip, hss, Storage.sort_base_dense]
    have hpayload : ((t.sort cmp).sort cmp).payload = (t.sort cmp).payload := by
      rw [Storage.sort_payload (t.sort cmp), hzip, hss, Storage.sort_payload]
    refine Storage.eq_of_fields ?_ hdense hpayload
    funext x
    rw [Storage.sort_base_sparse (t.sort cmp), hdense]
    by_cases hx : x ∈ (t.sort cmp).base.dense
    · rw [if_pos hx, Storage.sort_base_sparse t, if_pos hx]
    · rw [if_neg hx]
  · intro hwf hlen
    cases hd : t.base.dense with
    | nil =>
      have hpay : t.payload = [] := by
        rw [← List.length_eq_zero, hwf.2, hd]
        rfl
      refine Storage.eq_of_fields ?_ ?_ ?_
      · funext x
        rw [Storage.sort_base_sparse, Storage.sort_base_dense, hd, hpay]
        simp [List.insertionSort]
      · rw [Storage.sort_base_dense, hd, hpay]
        simp [List.insertionSort]
      · rw [Storage.sort_payload, hd, hpay]
        simp [List.insertionSort]
    | cons a tl =>
      have htl : tl = [] := by
        rw [hd] at hlen
        simp only [List.length_cons] at hlen
        exact List.length_eq_zero.1 (by omega)
      subst htl
      obtain ⟨v, hv⟩ := List.length_eq_one.1 (by rw [hwf.2, hd]; rfl)
      have hhas := hwf.1.2 a (by rw [hd]; exact List.mem_singleton_self a)
      obtain ⟨p, hsp, hdp⟩ := SparseSet.has_iff.1 hhas
      have hp0 : p = 0 := by
        rw [hd] at hdp
        cases p with
        | zero => rfl
        | succ q => simp at hdp
      subst hp0
      refine Storage.eq_of_fields ?_ ?_ ?_
      · funext x
        rw [Storage.sort_base_sparse, Storage.sort_base_dense, hd, hv]
        simp only [List.zip_cons_cons, List.zip_nil_right, List.insertionSort,
          List.orderedInsert, List.map_cons, List.map_nil]
        by_cases hx : x = a
        · subst hx
          rw [if_pos (List.mem_singleton_self x), hsp]
          simp [List.indexOf_cons]
        · rw [if_neg (by simp [hx])]
      · rw [Storage.sort_base_dense, hd, hv]
        simp [List.insertionSort, List.orderedInsert]
      · rw [Storage.sort_payload, hd, hv]
        simp [List.insertionSort, List.orderedInsert]

/-- Witness for claim C8 at the three-element store `st3` and the strict
order on identifiers: sorting twice equals sorting once, and on the
one-element store `st1` a sort is the identity. -/
theorem claim8_sort_idempotent_witness :
    (st3.sort cmpLt).sort cmpLt = st3.sort cmpLt ∧ st1.sort cmpLt = st1 := by
  have hirr : ∀ a, cmpLt a a = false := fun a => by simp [cmpLt]
  have htr : ∀ a b c, cmpLt a b = true → cmpLt b c = true → cmpLt a c = true := by
    intro a b c hab hbc
    simp only [cmpLt, decide_eq_true_eq] at hab hbc ⊢
    omega
  have hinc : ∀ a b c, cmpLt a b = false → cmpLt b a = false → cmpLt b c = false →
      cmpLt c b = false → cmpLt a c = false ∧ cmpLt c a = false := by
    intro a b c h1 h2 h3 h4
    simp only [cmpLt, decide_eq_false_iff_not, Nat.not_lt] at h1 h2 h3 h4 ⊢
    omega
  exact ⟨(claim8_sort_idempotent st3 cmpLt hirr htr hinc).1,
    (claim8_sort_idempotent st1 cmpLt hirr htr hinc).2 (by decide) (by decide)⟩

/-- Claim C10: `ResourceCache::load` returns true without running the loader
and without touching the cache when the identifier is already present; when
it is absent the loader runs exactly once, the call returns false exactly
when the loader produced a null pointer, and in that case the cache is left
unchanged, with no entry under the identifier. -/
theorem claim10_cache_load {Res : Type} (c : ResourceCache Res)
    (loader : Option Res) (idr : Nat) :
    (c.contains idr = true → c.load loader idr = (true, c, 0))
    ∧ (c.contains idr = false →
        (c.load loader idr).2.2 = 1
        ∧ ((c.load loader idr).1 = false ↔ loader = none)
        ∧ (loader = none → (c.load loader idr).2.1 = c
            ∧ ((c.load loader idr).2.1.resources idr = none))) := by
  unfold ResourceCache.contains ResourceCache.load
  constructor
  · intro h
    rw [if_pos h]
  · intro h
    rw [if_neg (by simp [h])]
    cases loader with
    | some r => simp
    | none =>
      refine ⟨rfl, by simp, fun _ => ⟨rfl, ?_⟩⟩
      simpa [Option.isSome_iff_exists] using h

/-- Witness for claim C10: on the empty cache with a null-returning loader,
load under identifier 7 runs the loader once and reports failure; on a cache
already holding identifier 7, load returns success immediately, leaving the
cache as is with zero loader invocations. -/
theorem claim10_cache_load_witness :
    (ResourceCache.init.load (none : Option Nat) 7).1 = false
    ∧ (ResourceCache.init.load (none : Option Nat) 7).2.2 = 1
    ∧ cpre.load (some 9) 7 = (true, cpre, 0) := by
  have h1 := (claim10_cache_load (ResourceCache.init : ResourceCache Nat) none 7).2 (by rfl)
  have h2 := (claim10_cache_load cpre (some 9) 7).1 (by rfl)
  exact ⟨h1.2.1.2 rfl, h1.1, h2⟩

/-! Effects of one respect swap. -/

lemma Storage.swapAt_base_dense (t : Storage) (i j : Nat) :
    (t.swapAt i j).base.dense =
      (t.base.dense.set i (t.base.dense.getD j 0)).set j (t.base.dense.getD i 0) := rfl

lemma Storage.swapAt_base_sparse (t : Storage) (i j x : Nat) :
    (t.swapAt i j).base.sparse x =
      if x = t.base.dense.getD j 0 then some i
      else if x = t.base.dense.getD i 0 then some j
      else t.base.sparse x := rfl

lemma Storage.swapAt_dense_length (t : Storage) (i j : Nat) :
    (t.swapAt i j).base.dense.length = t.base.dense.length := by
  rw [Storage.swapAt_base_dense]
  simp

lemma Storage.swapAt_dense_perm {t : Storage} {i j : Nat}
    (hi : i < t.base.dense.length) (hj : j < t.base.dense.length) :
    List.Perm (t.swapAt i j).base.dense t.base.dense := by
  rw [Storage.swapAt_base_dense]
  exact list_swap_perm hi hj

lemma Storage.swapAt_dense_getElem? {t : Storage} {i j : Nat}
    (hi : i < t.base.dense.length) (hj : j < t.base.dense.length) (k : Nat) :
    (t.swapAt i j).base.dense[k]? =
      if k = j then t.base.dense[i]?
      else if k = i then t.base.dense[j]? else t.base.dense[k]? := by
  have hia : t.base.dense[i]? = some (t.base.dense.getD i 0) :=
    list_getElem?_eq_some_getD hi 0
  have hjb : t.base.dense[j]? = some (t.base.dense.getD j 0) :=
    list_getElem?_eq_some_getD hj 0
  rw [Storage.swapAt_base_dense]
  by_cases hkj : k = j
  · subst hkj
    rw [if_pos rfl, List.getElem?_set_self (by simpa using hj), hia]
  · rw [if_neg hkj, List.getElem?_set_ne fun hh => hkj hh.symm]
    by_cases hki : k = i
    · subst hki
      rw [if_pos rfl, List.getElem?_set_self hi, hjb]
    · rw [if_neg hki, List.getElem?_set_ne fun hh => hki hh.symm]

lemma Storage.swapAt_valid {t : Storage} (hv : t.base.Valid) {i j : Nat}
    (hi : i < t.base.dense.length) (hj : j < t.base.dense.length) :
    (t.swapAt i j).base.Valid := by
  have hia : t.base.dense[i]? = some (t.base.dense.getD i 0) :=
    list_getElem?_eq_some_getD hi 0
  have hjb : t.base.dense[j]? = some (t.base.dense.getD j 0) :=
    list_getElem?_eq_some_getD hj 0
  constructor
  · exact (Storage.swapAt_dense_perm hi hj).symm.nodup hv.1
  · intro x hx
    have hx0 : x ∈ t.base.dense := (Storage.swapAt_dense_perm hi hj).mem_iff.1 hx
    obtain ⟨q, hsq, hdq⟩ := SparseSet.has_iff.1 (hv.2 x hx0)
    refine SparseSet.has_iff.2 ?_
    rw [Storage.swapAt_base_sparse]
    by_cases hxb : x = t.base.dense.getD j 0
    · refine ⟨i, by rw [if_pos hxb], ?_⟩
      rw [Storage.swapAt_dense_getElem? hi hj i]
      by_cases hij : i = j
      · rw [if_pos hij, hij, hjb, hxb]
      · rw [if_neg hij, if_pos rfl, hjb, hxb]
    · by_cases hxa : x = t.base.dense.getD i 0
      · refine ⟨j, by rw [if_neg hxb, if_pos hxa], ?_⟩
        rw [Storage.swapAt_dense_getElem? hi hj j, if_pos rfl, hia, hxa]
      · refine ⟨q, by rw [if_neg hxb, if_neg hxa]; exact hsq, ?_⟩
        have hqj : q ≠ j := fun hh => hxb (Option.some.inj (by rw [← hdq, hh, hjb]))
        have hqi : q ≠ i := fun hh => hxa (Option.some.inj (by rw [← hdq, hh, hia]))
        rw [Storage.swapAt_dense_getElem? hi hj q, if_neg hqj, if_neg hqi]
        exact hdq

lemma Storage.swapAt_wf {t : Storage} (hwf : t.WF) {i j : Nat}
    (hi : i < t.base.dense.length) (hj : j < t.base.dense.length) :
    (t.swapAt i j).WF := by
  refine ⟨Storage.swapAt_valid hwf.1 hi hj, ?_⟩
  rw [Storage.swapAt_dense_length]
  show ((t.payload.set i _).set j _).length = _
  simpa using hwf.2

/-! The respect walk preserves well-formedness and permutes the dense
array. -/

lemma Storage.respectGo_wf :
    ∀ (L : List Nat) (t : Storage) (pos : Nat),
      t.WF → (pos < t.base.dense.length ∨ t.base.dense = []) →
      (Storage.respectGo t L pos).WF
        ∧ List.Perm (Storage.respectGo t L pos).base.dense t.base.dense
  | [], _, _, hwf, _ => ⟨hwf, List.Perm.refl _⟩
  | e :: rest, t, pos, hwf, hpos => by
    rw [Storage.respectGo]
    by_cases he : t.base.has e = true
    · rw [if_pos he]
      obtain ⟨q, hsq, hdq⟩ := SparseSet.has_iff.1 he
      have hq : q < t.base.dense.length := (List.getElem?_eq_some.1 hdq).1
      have hne : t.base.dense ≠ [] := by
        intro hh
        rw [hh] at hq
        simp at hq
      have hpos1 : pos < t.base.dense.length := hpos.resolve_right hne
      have hgd : (t.base.sparse e).getD 0 = q := by rw [hsq]; rfl
      rw [hgd]
      have hwfs := Storage.swapAt_wf hwf hpos1 hq
      have hperm := Storage.swapAt_dense_perm hpos1 hq
      have hrec := Storage.respectGo_wf rest (t.swapAt pos q) (pos - 1) hwfs
        (Or.inl (by rw [Storage.swapAt_dense_length]; omega))
      exact ⟨hrec.1, hrec.2.trans hperm⟩
    · rw [if_neg he]
      exact Storage.respectGo_wf rest t pos hwf hpos

lemma Storage.respect_wf {t : Storage} (other : Storage) (hwf : t.WF) :
    (t.respect other).WF
      ∧ List.Perm (t.respect other).base.dense t.base.dense := by
  unfold Storage.respect
  rcases Nat.eq_zero_or_pos t.base.dense.length with h0 | hpos
  · exact Storage.respectGo_wf _ _ _ hwf (Or.inr (List.length_eq_zero.1 h0))
  · exact Storage.respectGo_wf _ _ _ hwf (Or.inl (by omega))

/-! Invariant preservation along full operation runs. -/

lemma Op.full_run_inv :
    ∀ (ops : List Op) (t : Storage) (A : List Nat),
      t.WF → A.Nodup → (∀ x, x ∈ t.base.dense ↔ x ∈ A) →
      Op.legal A ops = true →
      (Op.exec t ops).WF ∧ (Op.abs A ops).Nodup
        ∧ ∀ x, x ∈ (Op.exec t ops).base.dense ↔ x ∈ Op.abs A ops
  | [], _, _, hwf, hA, hmem, _ => ⟨hwf, hA, hmem⟩
  | .ins e v :: rest, t, A, hwf, hA, hmem, hleg => by
    rw [Op.legal, Bool.and_eq_true] at hleg
    have heA : e ∉ A := by
      intro hh
      have hc : A.contains e = true := by simp [List.contains, hh]
      rw [hc] at hleg
      exact absurd hleg.1 (by decide)
    have het : e ∉ t.base.dense := fun hh => heA ((hmem e).1 hh)
    refine Op.full_run_inv rest (t.construct e v) (e :: A)
      (Storage.construct_wf hwf het v)
      (List.nodup_cons.2 ⟨heA, hA⟩) (fun x => ?_) hleg.2
    rw [Storage.construct_base_dense, List.mem_append, List.mem_singleton,
      List.mem_cons, hmem x]
    tauto
  | .del e :: rest, t, A, hwf, hA, hmem, hleg => by
    rw [Op.legal, Bool.and_eq_true] at hleg
    have heA : e ∈ A := by
      have h1 := hleg.1
      simpa [List.contains] using h1
    have het : e ∈ t.base.dense := (hmem e).2 heA
    refine Op.full_run_inv rest (t.destroy e) (A.erase e)
      (Storage.destroy_wf hwf het) (hA.erase e) (fun x => ?_) hleg.2
    show x ∈ (t.base.destroy e).dense ↔ _
    rw [SparseSet.destroy_mem hwf.1 het x, hA.mem_erase_iff, hmem x]
    tauto
  | .srt cmp :: rest, t, A, hwf, hA, hmem, hleg => by
    rw [Op.legal] at hleg
    refine Op.full_run_inv rest (t.sort cmp) A (Storage.sort_wf hwf cmp) hA
      (fun x => ?_) hleg
    exact (Storage.sort_dense_perm (Nat.le_of_eq hwf.2.symm) cmp).mem_iff.trans (hmem x)
  | .rsp o :: rest, t, A, hwf, hA, hmem, hleg => by
    rw [Op.legal] at hleg
    refine Op.full_run_inv rest (t.respect o) A (Storage.respect_wf o hwf).1 hA
      (fun x => ?_) hleg
    exact (Storage.respect_wf o hwf).2.mem_iff.trans (hmem x)
  | .rst :: rest, t, A, hwf, hA, hmem, hleg => by
    rw [Op.legal] at hleg
    refine Op.full_run_inv rest t.reset [] (by show Storage.init.WF; decide) List.nodup_nil
      (fun x => by simp [Storage.reset, Storage.init, SparseSet.init]) hleg

/-- Claim C1: after every prefix of a legal run of insert, erase, sort,
respect and reset operations, each currently present identifier `e` has
`sparse[e]` equal to a position `p` strictly below the dense length with
`dense[p] = e`, and each identifier never inserted or already erased (or
wiped by reset) is never treated as present: `has e` is false. -/
theorem claim1_core_invariant (ops : List Op) (hleg : Op.legal [] ops = true)
    (e : Nat) :
    (e ∈ Op.abs [] ops →
      ∃ p, (Op.exec Storage.init ops).base.sparse e = some p
        ∧ p < (Op.exec Storage.init ops).base.dense.length
        ∧ (Op.exec Storage.init ops).base.dense[p]? = some e)
    ∧ (e ∉ Op.abs [] ops → (Op.exec Storage.init ops).has e = false) := by
  have h := Op.full_run_inv ops Storage.init [] (by decide) List.nodup_nil
    (fun x => by simp [Storage.init, SparseSet.init]) hleg
  constructor
  · intro habs
    obtain ⟨p, hsp, hdp⟩ :=
      SparseSet.has_iff.1 (h.1.1.2 e ((h.2.2 e).2 habs))
    exact ⟨p, hsp, (List.getElem?_eq_some.1 hdp).1, hdp⟩
  · intro habs
    exact Bool.eq_false_iff.2 fun hh =>
      habs ((h.2.2 e).1 (SparseSet.mem_of_has hh))

/-- Witness for claim C1 on the concrete run `traceC1` (insert 3, insert 12,
sort, respect, erase 3): identifier 12 is present with a coherent sparse
entry and identifier 3 is reported absent. -/
theorem claim1_core_invariant_witness :
    (∃ p, (Op.exec Storage.init traceC1).base.sparse 12 = some p
      ∧ p < (Op.exec Storage.init traceC1).base.dense.length
      ∧ (Op.exec Storage.init traceC1).base.dense[p]? = some 12)
    ∧ (Op.exec Storage.init traceC1).has 3 = false := by
  have h12 := (claim1_core_invariant traceC1 (by decide) 12).1 (by decide)
  have h3 := (claim1_core_invariant traceC1 (by decide) 3).2 (by decide)
  exact ⟨h12, h3⟩

lemma list_getD_take {α : Type} {l : List α} {i n : Nat} (h : i < n) (d : α) :
    (l.take n).getD i d = l.getD i d := by
  rw [List.getD_eq_getElem?_getD, List.getD_eq_getElem?_getD,
    List.getElem?_take_of_lt h]

/-! Placement theorem of the respect walk: processing a duplicate-free list
of candidate identifiers whose positions in the valid receiving index all
lie at or below the claimed boundary `pos` leaves the region above `pos`
untouched, ends with the present candidates laid out right-to-left just
below the boundary (hence, in the dense array, in the candidates' reverse
processing order), and fills the remaining low positions with a permutation
of the rest of the claimed region. -/

lemma Storage.respectGo_places :
    ∀ (L : List Nat) (t : Storage) (pos : Nat),
      t.base.Valid → L.Nodup →
      (∀ f ∈ L, ∀ q, t.base.sparse f = some q → t.base.dense[q]? = some f →
        q ≤ pos) →
      pos < t.base.dense.length →
      ∃ front,
        (Storage.respectGo t L pos).base.dense
          = front ++ (L.filter (fun f => t.base.has f)).reverse
              ++ t.base.dense.drop (pos + 1)
        ∧ front.length + (L.filter (fun f => t.base.has f)).length = pos + 1
        ∧ List.Perm (front ++ (L.filter (fun f => t.base.has f)).reverse)
            (t.base.dense.take (pos + 1))
  | [], t, pos, _, _, _, h4 => by
    refine ⟨t.base.dense.take (pos + 1), ?_, ?_, ?_⟩
    · show t.base.dense = _
      simp
    · simp only [List.filter_nil, List.length_nil, List.length_take,
        Nat.add_zero]
      omega
    · simp only [List.filter_nil, List.reverse_nil, List.append_nil]
      exact List.Perm.refl _
  | e :: rest, t, pos, hv, hnd, h3, h4 => by
    rw [Storage.respectGo]
    have hndr := List.nodup_cons.1 hnd
    by_cases he : t.base.has e = true
    case neg =>
      rw [if_neg he]
      have hfil : (e :: rest).filter (fun f => t.base.has f)
          = rest.filter (fun f => t.base.has f) := by
        rw [List.filter_cons, if_neg (by simp [he])]
      rw [hfil]
      exact Storage.respectGo_places rest t pos hv hndr.2
        (fun f hf => h3 f (List.mem_cons_of_mem e hf)) h4
    case pos =>
      rw [if_pos he]
      obtain ⟨q, hsq, hdq⟩ := SparseSet.has_iff.1 he
      have hqlen : q < t.base.dense.length := (List.getElem?_eq_some.1 hdq).1
      have hqpos : q ≤ pos := h3 e (List.mem_cons_self e rest) q hsq hdq
      have hgd : (t.base.sparse e).getD 0 = q := by rw [hsq]; rfl
      rw [hgd]
      have hbe : t.base.dense.getD q 0 = e :=
        Option.some.inj ((list_getElem?_eq_some_getD hqlen 0).symm.trans hdq)
      have hv2 := Storage.swapAt_valid hv h4 hqlen
      have hlen2 : (t.swapAt pos q).base.dense.length = t.base.dense.length :=
        Storage.swapAt_dense_length t pos q
      have hA4 : (t.swapAt pos q).base.dense[pos]? = some e := by
        rw [Storage.swapAt_dense_getElem? h4 hqlen pos]
        by_cases hpq : pos = q
        · rw [if_pos hpq, hpq]
          exact hdq
        · rw [if_neg hpq, if_pos rfl]
          exact hdq
      have hA5 : (t.swapAt pos q).base.dense.drop (pos + 1)
          = t.base.dense.drop (pos + 1) := by
        rw [Storage.swapAt_base_dense, List.drop_set, if_pos (by omega),
          List.drop_set, if_pos (by omega)]
      have hA6 : List.Perm ((t.swapAt pos q).base.dense.take (pos + 1))
          (t.base.dense.take (pos + 1)) := by
        rw [Storage.swapAt_base_dense, List.set_take, List.set_take]
        have h1 : pos < (t.base.dense.take (pos + 1)).length := by
          rw [List.length_take]
          omega
        have h2 : q < (t.base.dense.take (pos + 1)).length := by
          rw [List.length_take]
          omega
        have e1 : t.base.dense.getD q 0 = (t.base.dense.take (pos + 1)).getD q 0 :=
          (list_getD_take (by omega) 0).symm
        have e2 : t.base.dense.getD pos 0 = (t.base.dense.take (pos + 1)).getD pos 0 :=
          (list_getD_take (by omega) 0).symm
        rw [e1, e2]
        exact list_swap_perm h1 h2
      have hhas2 : ∀ f, (t.swapAt pos q).base.has f = t.base.has f := by
        intro f
        rw [SparseSet.has_eq_decide_mem hv2 f, SparseSet.has_eq_decide_mem hv f]
        exact decide_eq_decide.2 (Storage.swapAt_dense_perm h4 hqlen).mem_iff
      have hfil2 : rest.filter (fun f => (t.swapAt pos q).base.has f)
          = rest.filter (fun f => t.base.has f) :=
        List.filter_congr fun f _ => hhas2 f
      have h3r : ∀ f ∈ rest, ∀ r, (t.swapAt pos q).base.sparse f = some r →
          (t.swapAt pos q).base.dense[r]? = some f → r ≤ pos - 1 := by
        intro f hf r hsr hdr
        have hfe : f ≠ e := fun hh => hndr.1 (hh ▸ hf)
        rw [Storage.swapAt_base_sparse, hbe, if_neg hfe] at hsr
        by_cases hfa : f = t.base.dense.getD pos 0
        · rw [if_pos hfa] at hsr
          have hrq : r = q := (Option.some.inj hsr).symm
          have hqn : q ≠ pos := by
            intro hh
            apply hfe
            rw [hfa, ← hh]
            exact hbe
          omega
        · rw [if_neg hfa] at hsr
          rw [Storage.swapAt_dense_getElem? h4 hqlen r] at hdr
          by_cases hrq : r = q
          · rw [if_pos hrq] at hdr
            exact absurd
              (Option.some.inj ((list_getElem?_eq_some_getD h4 0).symm.trans hdr)).symm
              hfa
          · rw [if_neg hrq] at hdr
            by_cases hrp : r = pos
            · rw [if_pos hrp] at hdr
              exact absurd (Option.some.inj (hdr.symm.trans hdq)) hfe
            · rw [if_neg hrp] at hdr
              have := h3 f (List.mem_cons_of_mem e hf) r hsr hdr
              omega
      obtain ⟨front1, hdec, hlen1, hperm1⟩ :=
        Storage.respectGo_places rest (t.swapAt pos q) (pos - 1) hv2 hndr.2 h3r
          (by rw [hlen2]; omega)
      rw [hfil2] at hdec hlen1 hperm1
      have hfe2 : (e :: rest).filter (fun f => t.base.has f)
          = e :: rest.filter (fun f => t.base.has f) := by
        rw [List.filter_cons, if_pos (by simp [he])]
      rw [hfe2]
      rcases Nat.eq_zero_or_pos pos with hp0 | hppos
      · subst hp0
        have hq0 : q = 0 := by omega
        subst hq0
        have hnof : rest.filter (fun f => t.base.has f) = [] := by
          rw [List.filter_eq_nil_iff]
          intro f hf hhf
          obtain ⟨r, hsr, hdr⟩ := SparseSet.has_iff.1 hhf
          have hr : r ≤ 0 := h3 f (List.mem_cons_of_mem e hf) r hsr hdr
          have hr0 : r = 0 := by omega
          rw [hr0] at hdr
          exact hndr.1 ((Option.some.inj (hdr.symm.trans hdq)) ▸ hf)
        rw [hnof] at hdec hlen1 hperm1 ⊢
        simp only [List.reverse_nil, List.append_nil, Nat.zero_sub,
          Nat.zero_add, Nat.add_zero, List.length_nil] at hdec hlen1 hperm1
        have htake1 : (t.swapAt 0 0).base.dense.take 1 = [e] := by
          rw [List.take_succ, hA4]
          rfl
        rw [htake1] at hperm1
        have hfront1 : front1 = [e] := List.perm_singleton.1 hperm1
        refine ⟨[], ?_, ?_, ?_⟩
        · rw [hdec, hfront1, hA5]
          simp
        · simp
        · have ht1 : t.base.dense.take 1 = [e] := by
            rw [List.take_succ, hdq]
            rfl
          rw [ht1]
          simp only [List.reverse_cons, List.reverse_nil, List.nil_append]
          exact List.Perm.refl _
      · have hidx : pos - 1 + 1 = pos := by omega
        rw [hidx] at hdec hperm1
        have hlt2 : pos < (t.swapAt pos q).base.dense.length := by
          rw [hlen2]
          omega
        have hdropc : (t.swapAt pos q).base.dense.drop pos
            = e :: t.base.dense.drop (pos + 1) := by
          rw [List.drop_eq_getElem_cons hlt2, hA5]
          have hval := (List.getElem?_eq_some.1 hA4).2
          exact congrArg (fun z => z :: t.base.dense.drop (pos + 1)) hval
        refine ⟨front1, ?_, ?_, ?_⟩
        · rw [hdec, hdropc, List.reverse_cons]
          simp [List.append_assoc]
        · simp only [List.length_cons]
          omega
        · rw [List.reverse_cons, ← List.append_assoc]
          have h6 : (t.swapAt pos q).base.dense.take (pos + 1)
              = (t.swapAt pos q).base.dense.take pos ++ [e] := by
            rw [List.take_succ, hA4]
            rfl
          rw [h6] at hA6
          exact (hperm1.append_right [e]).trans hA6

/-- Counterexample to claim C3 as stated.  In the partial-overlap scenario
where self holds identifiers 1, 2, 3 (in that dense order) and the other
index holds exactly the common identifier 1, respect yields dense array
`[3, 2, 1]`: the common identifier 1 sits at the highest position, not
before the identifiers unique to self, and the unique identifiers 2 and 3
do not keep their original relative order (3 now precedes 2). -/
theorem claim3_respect_placement_counterexample :
    (ovSelf.base.dense = [1, 2, 3] ∧ ovOther.base.dense = [1]
      ∧ 1 ∈ ovSelf.base.dense ∧ 1 ∈ ovOther.base.dense
      ∧ 2 ∈ ovSelf.base.dense ∧ 2 ∉ ovOther.base.dense
      ∧ 3 ∈ ovSelf.base.dense ∧ 3 ∉ ovOther.base.dense)
    ∧ (ovSelf.respect ovOther).base.dense = [3, 2, 1]
    ∧ ¬((ovSelf.respect ovOther).base.dense.indexOf 1
        < (ovSelf.respect ovOther).base.dense.indexOf 2)
    ∧ ¬((ovSelf.respect ovOther).base.dense.indexOf 2
        < (ovSelf.respect ovOther).base.dense.indexOf 3) := by
  decide

/-- Claim C3 as amended: after `self.respect(other)` on a valid self and a
duplicate-free other, the identifiers common to both indexes occupy the
highest dense positions of self in the other index's relative order — the
resulting dense array is `u ++ common` with `common` the other index's dense
array restricted to identifiers present in self — and they are placed after
the identifiers unique to self, which end up as a permutation of themselves
in the remaining lower positions (they can be displaced by the swaps, so
their mutual order is not preserved in general). -/
theorem claim3_respect_placement_amended (t other : Storage)
    (hv : t.base.Valid) (hnd : other.base.dense.Nodup) :
    ∃ u,
      (t.respect other).base.dense
        = u ++ other.base.dense.filter (fun f => t.base.has f)
      ∧ List.Perm u
          (t.base.dense.filter (fun f => !(other.base.dense.contains f))) := by
  rcases Nat.eq_zero_or_pos t.base.dense.length with h0 | hpos
  · have hdn : t.base.dense = [] := List.length_eq_zero.1 h0
    have hhf : ∀ f, t.base.has f = false := fun f =>
      Bool.eq_false_iff.2 fun hh => by
        have hm := SparseSet.mem_of_has hh
        rw [hdn] at hm
        simp at hm
    have hre : t.respect other = t := by
      unfold Storage.respect
      exact Storage.respectGo_of_no_common _ t _ fun f _ => hhf f
    refine ⟨[], ?_, ?_⟩
    · rw [hre, hdn,
        List.filter_eq_nil_iff.2 fun f _ hf => by rw [hhf f] at hf; exact absurd hf (by decide)]
      rfl
    · rw [hdn]
      exact List.Perm.refl _
  · unfold Storage.respect
    have h3 : ∀ f ∈ other.base.dense.reverse, ∀ q,
        t.base.sparse f = some q → t.base.dense[q]? = some f →
        q ≤ t.base.dense.length - 1 := by
      intro f _ q _ hdq
      have := (List.getElem?_eq_some.1 hdq).1
      omega
    obtain ⟨front, hdec, hlen, hperm⟩ :=
      Storage.respectGo_places other.base.dense.reverse t
        (t.base.dense.length - 1) hv (by simpa using hnd) h3 (by omega)
    have hidx : t.base.dense.length - 1 + 1 = t.base.dense.length := by omega
    rw [hidx, List.drop_length, List.append_nil] at hdec
    rw [hidx, List.take_length] at hperm
    have hfr : (other.base.dense.reverse.filter (fun f => t.base.has f)).reverse
        = other.base.dense.filter (fun f => t.base.has f) := by
      rw [List.filter_reverse, List.reverse_reverse]
    rw [hfr] at hdec hperm
    refine ⟨front, hdec, ?_⟩
    have hD : List.Perm
        (t.base.dense.filter (fun f => other.base.dense.contains f)
          ++ t.base.dense.filter (fun f => !(other.base.dense.contains f)))
        t.base.dense := List.filter_append_perm _ _
    have hC : List.Perm (other.base.dense.filter (fun f => t.base.has f))
        (t.base.dense.filter (fun f => other.base.dense.contains f)) := by
      refine (List.perm_ext_iff_of_nodup (hnd.filter _) (hv.1.filter _)).2 fun x => ?_
      rw [List.mem_filter, List.mem_filter]
      constructor
      · rintro ⟨hxo, hxh⟩
        exact ⟨SparseSet.mem_of_has hxh, by simp [List.contains, hxo]⟩
      · rintro ⟨hxd, hxc⟩
        exact ⟨by simpa [List.contains] using hxc, (SparseSet.has_iff_mem hv).2 hxd⟩
    have m1 : (front : Multiset Nat)
        + (other.base.dense.filter (fun f => t.base.has f) : List Nat)
        = (t.base.dense : List Nat) := by
      rw [Multiset.coe_add]
      exact Multiset.coe_eq_coe.2 hperm
    have m2 : (t.base.dense.filter (fun f => other.base.dense.contains f) : Multiset Nat)
        + (t.base.dense.filter (fun f => !(other.base.dense.contains f)) : List Nat)
        = (t.base.dense : List Nat) := by
      rw [Multiset.coe_add]
      exact Multiset.coe_eq_coe.2 hD
    have m3 : (other.base.dense.filter (fun f => t.base.has f) : Multiset Nat)
        = (t.base.dense.filter (fun f => other.base.dense.contains f) : List Nat) :=
      Multiset.coe_eq_coe.2 hC
    have m4 : (front : Multiset Nat)
        = (t.base.dense.filter (fun f => !(other.base.dense.contains f)) : List Nat) := by
      rw [m3] at m1
      rw [← m2] at m1
      rw [add_comm ((t.base.dense.filter (fun f => other.base.dense.contains f) : List Nat) : Multiset Nat)] at m1
      exact add_right_cancel m1
    exact Multiset.coe_eq_coe.1 m4

/-- Witness for the amended claim C3 at the concrete partial-overlap
scenario (self holding 1, 2, 3 and other holding only 1). -/
theorem claim3_respect_placement_amended_witness :
    ∃ u,
      (ovSelf.respect ovOther).base.dense
        = u ++ ovOther.base.dense.filter (fun f => ovSelf.base.has f)
      ∧ List.Perm u
          (ovSelf.base.dense.filter (fun f => !(ovOther.base.dense.contains f))) :=
  claim3_respect_placement_amended ovSelf ovOther (by decide) (by decide)

/-- Claim C2: for any valid index holding exactly the identifiers 6, 1, 2,
3, 4, 5 — whatever its insertion order, hence whatever its dense order —
calling respect against the index holding 1..5 (in that order) reorders it
to exactly `[6, 1, 2, 3, 4, 5]`, while the argument index is left unchanged
as `[1, 2, 3, 4, 5]` (the operation never writes to its argument). -/
theorem claim2_respect_reorders_receiver (t : Storage) (hv : t.base.Valid)
    (hp : List.Perm t.base.dense [6, 1, 2, 3, 4, 5]) :
    (t.respect lhs5).base.dense = [6, 1, 2, 3, 4, 5]
    ∧ lhs5.base.dense = [1, 2, 3, 4, 5] := by
  refine ⟨?_, by decide⟩
  have hlen : t.base.dense.length = 6 := by rw [hp.length_eq]; rfl
  unfold Storage.respect
  have hrev : lhs5.base.dense.reverse = [5, 4, 3, 2, 1] := by decide
  rw [hrev, hlen]
  have h61 : (6 : Nat) - 1 = 5 := rfl
  rw [h61]
  have hmem : ∀ f ∈ [5, 4, 3, 2, 1], t.base.has f = true := by
    intro f hf
    refine (SparseSet.has_iff_mem hv).2 (hp.mem_iff.2 ?_)
    simp only [List.mem_cons, List.mem_singleton, List.not_mem_nil, or_false] at hf
    rcases hf with rfl | rfl | rfl | rfl | rfl <;> decide
  obtain ⟨front, hdec, hlen2, hperm2⟩ :=
    Storage.respectGo_places [5, 4, 3, 2, 1] t 5 hv (by decide)
      (fun f hf q hsq hdq => by
        have hq := (List.getElem?_eq_some.1 hdq).1
        rw [hlen] at hq
        omega)
      (by rw [hlen]; omega)
  have hfilter : ([5, 4, 3, 2, 1].filter fun f => t.base.has f) = [5, 4, 3, 2, 1] :=
    List.filter_eq_self.2 fun a ha => hmem a ha
  rw [hfilter] at hdec hlen2 hperm2
  have hrev2 : ([5, 4, 3, 2, 1] : List Nat).reverse = [1, 2, 3, 4, 5] := by decide
  rw [hrev2] at hdec hperm2
  have h56 : (5 : Nat) + 1 = 6 := rfl
  rw [h56] at hdec hperm2
  have hdrop : t.base.dense.drop 6 = [] := by
    rw [← hlen]
    exact List.drop_length _
  have htake : t.base.dense.take 6 = t.base.dense := by
    rw [← hlen]
    exact List.take_length _
  rw [hdrop, List.append_nil] at hdec
  rw [htake] at hperm2
  have hfl : front.length = 1 := by
    simp only [List.length_cons, List.length_nil] at hlen2
    omega
  obtain ⟨x, hx⟩ := List.length_eq_one.1 hfl
  rw [hx] at hdec hperm2
  have hcomb := hperm2.trans hp
  have h6mem : (6 : Nat) ∈ ([x] ++ [1, 2, 3, 4, 5] : List Nat) :=
    hcomb.mem_iff.2 (by decide)
  have hx6 : x = 6 := by
    simp only [List.mem_append, List.mem_cons, List.mem_singleton,
      List.not_mem_nil, or_false] at h6mem
    rcases h6mem with h | h | h | h | h | h
    · exact h.symm
    all_goals omega
  rw [hx6] at hdec
  exact hdec

/-- Witness for claim C2 at the insertion order of test RespectUnordered:
the index built by inserting 3, 2, 6, 1, 4, 5 is reordered by respect
against the 1..5 index to exactly `[6, 1, 2, 3, 4, 5]`. -/
theorem claim2_respect_reorders_receiver_witness :
    (rhs6.respect lhs5).base.dense = [6, 1, 2, 3, 4, 5]
    ∧ lhs5.base.dense = [1, 2, 3, 4, 5] :=
  claim2_respect_reorders_receiver rhs6 (by decide) (by decide)

/-- Claim C9: iteration runs over the dense array in exactly reverse dense
order: for the store with dense array `[3, 12, 42]` (test DataBeginEnd) the
iteration sequence is `42, 12, 3`, and on an empty store the sequence is
empty (`begin() == end()`). -/
theorem claim9_iteration_reverse_dense :
    d3.dense = [3, 12, 42] ∧ d3.iterate = [42, 12, 3]
      ∧ SparseSet.init.iterate = [] := by
  decide

/-- Claim C5: constructing payloads 12, 9, 6, 3, 1 under identifiers 12, 42,
7, 3, 9 and sorting with the ascending-by-value comparator leaves the raw
payload array reading `[12, 9, 6, 3, 1]` at positions 0..4 while forward
iteration over identifiers visits payload values 1, 3, 6, 9, 12. -/
theorem claim5_sort_worked_example :
    (st5.sort cmpAsc5).raw = [12, 9, 6, 3, 1]
      ∧ ((st5.sort cmpAsc5).iterate.map fun e => (st5.sort cmpAsc5).get e)
          = [1, 3, 6, 9, 12] := by
  decide

/-- Claim C6: respect against an index with a disjoint identifier set leaves
the receiver completely unchanged, dense, payload and sparse arrays alike
(the argument index is read-only for the operation, so it is unchanged by
construction of the embedding). -/
theorem claim6_respect_disjoint (t other : Storage)
    (hdisj : ∀ e ∈ other.base.dense, e ∉ t.base.dense) :
    t.respect other = t := by
  unfold Storage.respect
  refine Storage.respectGo_of_no_common _ t _ fun e he => ?_
  have : e ∈ other.base.dense := by simpa using he
  exact Bool.eq_false_iff.2 fun hh => hdisj e this (SparseSet.mem_of_has hh)

/-- Witness for claim C6: the concrete store holding identifiers 3, 12, 42
is untouched by respect against the disjoint store holding 7 and 9. -/
theorem claim6_respect_disjoint_witness : st3.respect dj2 = st3 :=
  claim6_respect_disjoint st3 dj2 (by decide)

end Entt
